import Mathlib

/-!
Verification of the NSE 200 winner algorithm (src/utils.py) against its
natural-language specification.  The Python functions are shallowly embedded:
prices and cash amounts become rationals, candle rows become a structure
holding the two fields the code reads (timestamp and close), fallible code
returns `Option`/`Except`, and Python dicts become a `Dict` structure carrying
the insertion-ordered key list together with the value map.  Network fetches
and file loads are abstracted as function parameters, exactly at the call
boundaries where src/utils.py consumes them.
-/

namespace Algo

/-- A candle row.  The API rows are `[date, open, high, low, close, volume, oi]`;
`src/utils.py` reads only `crow[0]` (the date, via `datesort`, compared as a
timestamp) and `crow[4]` (the close), so only those two fields are modelled. -/
structure Candle where
  ts : ℤ
  close : ℚ
deriving DecidableEq

/-- `datesort` (src/utils.py:15): the sort key for candle rows, the row's
timestamp. -/
def datesort (crow : Candle) : ℤ := crow.ts

/-- The comparator realising `candles.sort(key=datesort, reverse=True)`:
Python's stable sort with a reversed key order keeps `a` before `b` when
`datesort b ≤ datesort a`. -/
def byDateDesc (a b : Candle) : Bool := decide (datesort b ≤ datesort a)

/-- `_process_candle_data` (src/utils.py:91): sort the candles newest-first
(stable, like Python's `list.sort(key=datesort, reverse=True)`), take the close
of the earliest date (`candles[-1][4]`) and of the latest date
(`candles[0][4]`), and return `(end - start) / start`; `None` when there are no
candles or the earliest close is zero.  The `getD` defaults are unreachable:
the sorted list is nonempty whenever `candles` is. -/
def processCandleData (candles : List Candle) : Option ℚ :=
  if candles = [] then none
  else
    let sorted := candles.mergeSort byDateDesc
    let startPrice := (sorted.getLast?.getD ⟨0, 0⟩).close
    let endPrice := (sorted.head?.getD ⟨0, 0⟩).close
    if startPrice = 0 then none
    else some ((endPrice - startPrice) / startPrice)

/-- `get_returns` (src/utils.py:21) with the HTTP/cache layer abstracted:
`fetchResult` is `some candles` when the fetch (or cache hit) succeeded and
`none` on any failure path; on success the candles are processed by
`_process_candle_data`. -/
def getReturns (fetchResult : Option (List Candle)) : Option ℚ :=
  fetchResult.bind processCandleData

/-- The per-symbol gain recorded by `calculate_returns_for_all_stocks`
(src/utils.py:155): `returns if returns is not None else 0`. -/
def gainOf (fetchResult : Option (List Candle)) : ℚ :=
  (getReturns fetchResult).getD 0

/-- A ranked stock record `{"symbol": ..., "gain": ...}` (src/utils.py:167). -/
structure RankedStock where
  symbol : String
  gain : ℚ
deriving DecidableEq

/-- The comparator realising `sorted(sym_returns.items(), key=lambda x: x[1],
reverse=True)` (src/utils.py:166): stable, highest gain first. -/
def byGainDesc (a b : String × ℚ) : Bool := decide (b.2 ≤ a.2)

/-- `calculate_returns_for_all_stocks` (src/utils.py:130), with the universe
table and per-instrument fetch abstracted: `univList` is the symbol column of
the NSE 200 table (the symbol→instrument-key indirection is folded into
`fetch`).  The code builds the dict `sym_returns` (insertion-ordered, one entry
per symbol) and sorts its items by gain, highest first, with Python's stable
`sorted(..., key=lambda x: x[1], reverse=True)`. -/
def calculateReturnsForAllStocks (univList : List String)
    (fetch : String → Option (List Candle)) : List RankedStock :=
  let symReturns := univList.map (fun s => (s, gainOf (fetch s)))
  (symReturns.mergeSort byGainDesc).map (fun p => { symbol := p.1, gain := p.2 })

/-- One iteration of the sell/hold loop of `calculate_portfolio_changes`
(src/utils.py:210-218): symbols outside the top-40 set are appended to `sell`,
symbols in the top-20 set are skipped, the rest are appended to `hold`. -/
def sellHoldStep (top40Syms top20Syms : List String)
    (acc : List String × List String) (symbol : String) :
    List String × List String :=
  if symbol ∉ top40Syms then (acc.1 ++ [symbol], acc.2)
  else if symbol ∈ top20Syms then acc
  else (acc.1, acc.2 ++ [symbol])

/-- `calculate_portfolio_changes` (src/utils.py:186): `currentSymbols` models
the iteration over `set(current_portfolio['Symbol'].values)` (the enumeration
order of a Python set is unspecified, so theorems quantify over it).  Returns
`(buy, sell, hold)` as the source does. -/
def calculatePortfolioChanges (currentSymbols : List String)
    (top40 top20 : List RankedStock) :
    List String × List String × List String :=
  let top40Syms := top40.map RankedStock.symbol
  let top20Syms := top20.map RankedStock.symbol
  let sellHold := currentSymbols.foldl (sellHoldStep top40Syms top20Syms) ([], [])
  let buy := top20.map RankedStock.symbol
  (buy, sellHold.1, sellHold.2)

/-- A Python dict with `String` keys and `ℚ` values: the insertion-ordered
key list together with the value map.  `d.get` is only read at present keys
(Python raises `KeyError` otherwise; no modelled code path does that). -/
structure Dict where
  keys : List String
  val : String → ℚ

/-- `d[k] = v`: updates the value in place if `k` is present, else appends the
key. -/
def Dict.set (d : Dict) (k : String) (v : ℚ) : Dict :=
  { keys := if k ∈ d.keys then d.keys else d.keys ++ [k],
    val := fun s => if s = k then v else d.val s }

/-- `d[k]` for a present key. -/
def Dict.get (d : Dict) (k : String) : ℚ := d.val k

/-- `{}`. -/
def Dict.empty : Dict := { keys := [], val := fun _ => 0 }

/-- `sum(d.values())`. -/
def Dict.sumValues (d : Dict) : ℚ := (d.keys.map d.val).sum

/-- Step 1 of `smart_allocate_cash` (src/utils.py:243-252): build the
`stock_prices` dict over the buy list.  `resolvedPrice s` abstracts the
single-unit price obtained through `calculate_units_to_buy` (src/utils.py:667):
it is `0` when the symbol is missing from the NSE 200 table or every price
strategy fails, and the code keeps the entry only when the price is
positive. -/
def buildStockPrices (buyList : List String) (resolvedPrice : String → ℚ) : Dict :=
  buyList.foldl
    (fun sp s => if 0 < resolvedPrice s then sp.set s (resolvedPrice s) else sp)
    Dict.empty

/-- The running state of phase 1 of `smart_allocate_cash`
(src/utils.py:261-284): the allocations dict, `guaranteed_investment`,
`remaining_cash` and `affordable_stocks`. -/
structure Phase1State where
  allocations : Dict
  guaranteed : ℚ
  remainingCash : ℚ
  affordableStocks : List String

/-- One iteration of the phase-1 loop (src/utils.py:272-284): a symbol present
in `stock_prices` whose single-unit price fits in the remaining cash is
allocated exactly one unit's worth. -/
def phase1Step (stockPrices : Dict) (st : Phase1State) (symbol : String) :
    Phase1State :=
  if symbol ∈ stockPrices.keys then
    let price := stockPrices.get symbol
    if price ≤ st.remainingCash then
      { allocations := st.allocations.set symbol price,
        guaranteed := st.guaranteed + price,
        remainingCash := st.remainingCash - price,
        affordableStocks := st.affordableStocks ++ [symbol] }
    else st
  else st

/-- Phase 1 of `smart_allocate_cash`: fold the guarantee step over the buy
list, starting from an empty allocation and the full available cash. -/
def runPhase1 (buyList : List String) (stockPrices : Dict)
    (availableCash : ℚ) : Phase1State :=
  buyList.foldl (phase1Step stockPrices)
    { allocations := Dict.empty, guaranteed := 0,
      remainingCash := availableCash, affordableStocks := [] }

/-- The phase-2 priority weight (src/utils.py:294): `20 * 0.8 ** i`. -/
def weightOf (i : ℕ) : ℚ := 20 * (4 / 5 : ℚ) ^ i

/-- The phase-2 weights loop (src/utils.py:289-296): enumerate
`affordable_stocks`, record each symbol's weight in the `weights` dict and
accumulate `total_weight`. -/
def phase2Weights (affordableStocks : List String) : Dict × ℚ :=
  affordableStocks.enum.foldl
    (fun acc p => (acc.1.set p.2 (weightOf p.1), acc.2 + weightOf p.1))
    (Dict.empty, 0)

/-- The phase-2 distribution loop (src/utils.py:298-301): each affordable
symbol's allocation grows by `(weights[symbol] / total_weight) *
remaining_cash`. -/
def phase2Distribute (allocations : Dict) (affordableStocks : List String)
    (weights : Dict) (totalWeight remainingCash : ℚ) : Dict :=
  affordableStocks.foldl
    (fun a s => a.set s (a.get s + weights.get s / totalWeight * remainingCash))
    allocations

/-- `smart_allocate_cash` (src/utils.py:226).  Division by zero is a Python
`ZeroDivisionError`, so the no-prices fallback returns `Except.error` when the
buy list is empty (`available_cash / len(buy_list)` with a zero divisor). -/
def smartAllocateCash (buyList : List String) (resolvedPrice : String → ℚ)
    (availableCash : ℚ) : Except Unit Dict :=
  let stockPrices := buildStockPrices buyList resolvedPrice
  if stockPrices.keys = [] then
    if buyList.length = 0 then Except.error ()
    else
      Except.ok (buyList.foldl
        (fun a s => a.set s (availableCash / (buyList.length : ℚ)))
        Dict.empty)
  else
    let p1 := runPhase1 buyList stockPrices availableCash
    if 0 < p1.remainingCash ∧ p1.affordableStocks ≠ [] then
      let w := phase2Weights p1.affordableStocks
      Except.ok (phase2Distribute p1.allocations p1.affordableStocks w.1 w.2
        p1.remainingCash)
    else Except.ok p1.allocations

/-- The allocation step of `update_portfolio` (src/utils.py:376-381): it calls
`smart_allocate_cash` only when the buy list is nonempty and otherwise uses the
empty dict. -/
def updatePortfolioAllocations (buyList : List String)
    (resolvedPrice : String → ℚ) (availableCash : ℚ) : Except Unit Dict :=
  if buyList ≠ [] then smartAllocateCash buyList resolvedPrice availableCash
  else Except.ok Dict.empty

/-- A row of the portfolio file: `{Symbol, Units}`.  Stock rows hold integer
unit counts, the pseudo-row `CASH` holds a currency balance; the column is one
numeric field in the source, so `units : ℚ` covers both. -/
structure Position where
  symbol : String
  units : ℚ
deriving DecidableEq

/-- An entry of `buyable_stocks` (src/utils.py:793): the fields the loop reads
(`current_units` is recorded by the source but never used). -/
structure BuyableStock where
  symbol : String
  price : ℚ
deriving DecidableEq

/-- The comparator realising `buyable_stocks.sort(key=lambda x: x['price'])`
(src/utils.py:805): cheapest first. -/
def byPriceAsc (a b : BuyableStock) : Bool := decide (a.price ≤ b.price)

/-- Python's `min` over a nonempty sequence (`min(stock['price'] for ...)`,
src/utils.py:811); the `[]` case is never taken. -/
def listMinQ : List ℚ → ℚ
  | [] => 0
  | x :: xs => xs.foldl min x

/-- One step of the inner round-robin loop of `redistribute_remaining_cash`
(src/utils.py:815-837): buy one more unit of the stock if its price fits the
remaining cash.  The state is `(df, cash_to_redistribute, bought_this_round)`;
`redistributed_amount` and the summary list only feed prints and are not
modelled. -/
def redistStep (st : List Position × ℚ × Bool) (b : BuyableStock) :
    List Position × ℚ × Bool :=
  if b.price ≤ st.2.1 then
    (st.1.map (fun p =>
        if p.symbol = b.symbol then { symbol := p.symbol, units := p.units + 1 }
        else p),
      st.2.1 - b.price, true)
  else st

/-- One round of the while-loop body: try each buyable stock once, in the
sorted order, starting with `bought_this_round = False`. -/
def redistRound (buyable : List BuyableStock) (df : List Position) (cash : ℚ) :
    List Position × ℚ × Bool :=
  buyable.foldl redistStep (df, cash, false)

lemma foldl_min_le_init (l : List ℚ) (a : ℚ) : l.foldl min a ≤ a := by
  induction l generalizing a with
  | nil => simp
  | cons y ys ih => exact le_trans (ih (min a y)) (min_le_left a y)

lemma foldl_min_le_mem (l : List ℚ) (a : ℚ) {x : ℚ} (h : x ∈ l) :
    l.foldl min a ≤ x := by
  induction l generalizing a with
  | nil => simp at h
  | cons y ys ih =>
    rcases List.mem_cons.mp h with rfl | hx
    · exact le_trans (foldl_min_le_init ys (min a x)) (min_le_right a x)
    · exact ih (min a y) hx

lemma listMinQ_le_of_mem {x : ℚ} {l : List ℚ} (h : x ∈ l) : listMinQ l ≤ x := by
  cases l with
  | nil => simp at h
  | cons y ys =>
    rcases List.mem_cons.mp h with rfl | hx
    · exact foldl_min_le_init ys x
    · exact foldl_min_le_mem ys y hx

lemma foldl_redistStep_cash_le (l : List BuyableStock)
    (hpos : ∀ b ∈ l, 0 < b.price) (st : List Position × ℚ × Bool) :
    (l.foldl redistStep st).2.1 ≤ st.2.1 := by
  induction l generalizing st with
  | nil => simp
  | cons b t ih =>
    simp only [List.foldl_cons]
    refine le_trans (ih (fun c hc => hpos c (List.mem_cons_of_mem b hc)) _) ?_
    unfold redistStep
    split
    · have := hpos b (List.mem_cons_self b t)
      simp only
      linarith
    · exact le_rfl

lemma foldl_redistStep_bought (l : List BuyableStock)
    (hpos : ∀ b ∈ l, 0 < b.price) (st : List Position × ℚ × Bool)
    (h0 : st.2.2 = false) (hb : (l.foldl redistStep st).2.2 = true) :
    ∃ b ∈ l, (l.foldl redistStep st).2.1 ≤ st.2.1 - b.price := by
  induction l generalizing st with
  | nil => simp only [List.foldl_nil] at hb; rw [h0] at hb; exact absurd hb (by simp)
  | cons b t ih =>
    simp only [List.foldl_cons] at hb ⊢
    by_cases hle : b.price ≤ st.2.1
    · refine ⟨b, List.mem_cons_self b t, ?_⟩
      have hcash := foldl_redistStep_cash_le t
        (fun c hc => hpos c (List.mem_cons_of_mem b hc)) (redistStep st b)
      have : (redistStep st b).2.1 = st.2.1 - b.price := by
        unfold redistStep; rw [if_pos hle]
      linarith [this ▸ hcash]
    · have hst : redistStep st b = st := by unfold redistStep; rw [if_neg hle]
      rw [hst] at hb ⊢
      obtain ⟨c, hc, hle'⟩ := ih (fun c hc => hpos c (List.mem_cons_of_mem b hc)) st h0 hb
      exact ⟨c, List.mem_cons_of_mem b hc, hle'⟩

lemma redistRound_decrease (buyable : List BuyableStock) (df : List Position)
    (cash : ℚ) (hpos : ∀ b ∈ buyable, 0 < b.price)
    (hb : (redistRound buyable df cash).2.2 = true) :
    (redistRound buyable df cash).2.1 ≤
      cash - listMinQ (buyable.map BuyableStock.price) := by
  obtain ⟨b, hbm, hle⟩ := foldl_redistStep_bought buyable hpos (df, cash, false) rfl hb
  have hmin : listMinQ (buyable.map BuyableStock.price) ≤ b.price :=
    listMinQ_le_of_mem (List.mem_map_of_mem BuyableStock.price hbm)
  unfold redistRound
  refine le_trans hle ?_
  simp only
  linarith

lemma floor_div_lt_floor_div {m a b : ℚ} (hm : 0 < m) (hb : m ≤ b)
    (hab : a ≤ b - m) : Nat.floor (a / m) < Nat.floor (b / m) := by
  have hb1 : (1 : ℚ) ≤ b / m := (one_le_div hm).mpr hb
  have hfb : 1 ≤ Nat.floor (b / m) := Nat.le_floor (by exact_mod_cast hb1)
  rcases lt_or_le a 0 with ha | ha
  · have hneg : a / m ≤ 0 := (div_neg_of_neg_of_pos ha hm).le
    rw [Nat.floor_of_nonpos hneg]
    omega
  · have h1 : (Nat.floor (a / m) : ℚ) ≤ a / m := Nat.floor_le (div_nonneg ha hm.le)
    have h2 : a / m ≤ b / m - 1 := by
      have h3 : a / m ≤ (b - m) / m := (div_le_div_iff_of_pos_right hm).mpr hab
      have h4 : (b - m) / m = b / m - 1 := by
        field_simp
      linarith
    have key : ((Nat.floor (a / m) + 1 : ℕ) : ℚ) ≤ b / m := by
      push_cast
      linarith
    have := Nat.le_floor key
    omega

/-- The while loop of `redistribute_remaining_cash` (src/utils.py:810-840):
while the cash to redistribute covers the cheapest buyable price, run one
round-robin round; stop when a full round buys nothing.  The source loop would
run forever if the cheapest buyable price were nonpositive — resolved prices
are positive closes — so the model also exits there (the conjunct
`0 < listMinQ ...` of the guard). -/
def redistLoop (buyable : List BuyableStock) (df : List Position) (cash : ℚ) :
    List Position × ℚ :=
  if h : listMinQ (buyable.map BuyableStock.price) ≤ cash ∧
      0 < listMinQ (buyable.map BuyableStock.price) then
    if hb : (redistRound buyable df cash).2.2 = true then
      redistLoop buyable (redistRound buyable df cash).1
        (redistRound buyable df cash).2.1
    else ((redistRound buyable df cash).1, (redistRound buyable df cash).2.1)
  else (df, cash)
termination_by Nat.floor (cash / listMinQ (buyable.map BuyableStock.price))
decreasing_by
  have hpos : ∀ b ∈ buyable, 0 < b.price := fun b hbm =>
    lt_of_lt_of_le h.2 (listMinQ_le_of_mem (List.mem_map_of_mem BuyableStock.price hbm))
  exact floor_div_lt_floor_div h.2 h.1 (redistRound_decrease buyable df cash hpos hb)

/-- The `buyable_stocks` construction (src/utils.py:781-798): a held stock is
buyable when its current price resolves (`currentPrice` abstracts the NSE 200
lookup plus `get_current_price`; `none` covers a missing table row or total
fetch failure, matching the falsy `None`), is nonzero (Python truthiness of the
float) and fits in the cash to redistribute. -/
def buyableStocksOf (stockPositions : List Position)
    (currentPrice : String → Option ℚ) (cashToRedistribute : ℚ) :
    List BuyableStock :=
  stockPositions.filterMap (fun p =>
    match currentPrice p.symbol with
    | some pr =>
        if pr ≠ 0 ∧ pr ≤ cashToRedistribute then
          some { symbol := p.symbol, price := pr }
        else none
    | none => none)

/-- `redistribute_remaining_cash` (src/utils.py:757). -/
def redistribute_remaining_cash (df : List Position)
    (currentPrice : String → Option ℚ) (remainingCash minCashThreshold : ℚ) :
    List Position × ℚ :=
  if remainingCash ≤ minCashThreshold then (df, remainingCash)
  else
    let cashToRedistribute := remainingCash - minCashThreshold
    let stockPositions := df.filter (fun p => decide (p.symbol ≠ "CASH"))
    if stockPositions = [] then (df, remainingCash)
    else
      let buyableStocks :=
        buyableStocksOf stockPositions currentPrice cashToRedistribute
      if buyableStocks = [] then (df, remainingCash)
      else
        let sorted := buyableStocks.mergeSort byPriceAsc
        let r := redistLoop sorted df cashToRedistribute
        (r.1, minCashThreshold + r.2)

/-- The allocation a returned dict assigns to a symbol (`0` for the error
outcome, which assigns nothing). -/
def allocGet (r : Except Unit Dict) (s : String) : ℚ :=
  match r with
  | Except.ok d => d.get s
  | Except.error _ => 0

/-- The total amount of a returned allocation dict. -/
def allocSum (r : Except Unit Dict) : ℚ :=
  match r with
  | Except.ok d => d.sumValues
  | Except.error _ => 0

section DecisionEngine

lemma sellHold_foldl (t40 t20 : List String) (l : List String) :
    ∀ acc : List String × List String,
    l.foldl (sellHoldStep t40 t20) acc =
      (acc.1 ++ l.filter (fun s => decide (s ∉ t40)),
        acc.2 ++ l.filter (fun s => decide (s ∈ t40 ∧ s ∉ t20))) := by
  induction l with
  | nil => intro acc; simp
  | cons a l ih =>
    intro acc
    simp only [List.foldl_cons, ih, List.filter_cons]
    unfold sellHoldStep
    by_cases h40 : a ∈ t40
    · by_cases h20 : a ∈ t20
      · simp [h40, h20]
      · simp [h40, h20, List.append_assoc]
    · simp [h40, List.append_assoc]

lemma mem_sell_iff (currentSymbols : List String) (top40 top20 : List RankedStock)
    (s : String) :
    s ∈ (calculatePortfolioChanges currentSymbols top40 top20).2.1 ↔
      s ∈ currentSymbols ∧ s ∉ top40.map RankedStock.symbol := by
  unfold calculatePortfolioChanges
  simp only [sellHold_foldl, List.nil_append, List.mem_filter, List.mem_map,
    decide_eq_true_eq]

lemma mem_hold_iff (currentSymbols : List String) (top40 top20 : List RankedStock)
    (s : String) :
    s ∈ (calculatePortfolioChanges currentSymbols top40 top20).2.2 ↔
      s ∈ currentSymbols ∧ s ∈ top40.map RankedStock.symbol ∧
        s ∉ top20.map RankedStock.symbol := by
  unfold calculatePortfolioChanges
  simp only [sellHold_foldl, List.nil_append, List.mem_filter, List.mem_map,
    decide_eq_true_eq]

/-- C5: for every current portfolio (any enumeration of its symbol set) and
every ranked universe, `calculate_portfolio_changes` returns
`sell = current − top-2K`, `hold = (current ∩ top-2K) − top-K` (as sets), and
`buy` is exactly the top-K symbol list in its ranked order, including held
symbols. -/
theorem calculatePortfolioChanges_spec (currentSymbols : List String)
    (top40 top20 : List RankedStock) :
    (calculatePortfolioChanges currentSymbols top40 top20).1 =
        top20.map RankedStock.symbol ∧
    (∀ s, s ∈ (calculatePortfolioChanges currentSymbols top40 top20).2.1 ↔
        s ∈ currentSymbols ∧ s ∉ top40.map RankedStock.symbol) ∧
    (∀ s, s ∈ (calculatePortfolioChanges currentSymbols top40 top20).2.2 ↔
        s ∈ currentSymbols ∧ s ∈ top40.map RankedStock.symbol ∧
          s ∉ top20.map RankedStock.symbol) := by
  refine ⟨rfl, fun s => mem_sell_iff _ _ _ s, fun s => mem_hold_iff _ _ _ s⟩

/-- C10: a portfolio holding the pseudo-symbol `CASH` is treated like any
stock by `calculate_portfolio_changes`: since `CASH` is not among the top-2K
symbols, it lands in the sell list. -/
theorem cash_in_sell_list (currentSymbols : List String)
    (top40 top20 : List RankedStock) (hmem : "CASH" ∈ currentSymbols)
    (hnot : "CASH" ∉ top40.map RankedStock.symbol) :
    "CASH" ∈ (calculatePortfolioChanges currentSymbols top40 top20).2.1 :=
  (mem_sell_iff currentSymbols top40 top20 "CASH").mpr ⟨hmem, hnot⟩

/-- Witness for C10 at a concrete portfolio and ranking. -/
theorem cash_in_sell_list_witness :
    ("CASH" ∈ ["CASH", "AAA"] ∧
      "CASH" ∉ ([⟨"AAA", 1⟩, ⟨"BBB", 2⟩] : List RankedStock).map RankedStock.symbol) ∧
    "CASH" ∈ (calculatePortfolioChanges ["CASH", "AAA"]
      [⟨"AAA", 1⟩, ⟨"BBB", 2⟩] [⟨"AAA", 1⟩]).2.1 :=
  ⟨⟨by decide, by decide⟩,
    cash_in_sell_list ["CASH", "AAA"] [⟨"AAA", 1⟩, ⟨"BBB", 2⟩] [⟨"AAA", 1⟩]
      (by decide) (by decide)⟩

end DecisionEngine

section EmptyBuyList

/-- C4 counterexample: for an empty buy list, `smart_allocate_cash` does not
return the empty mapping — the `stock_prices` dict is empty, so the no-prices
fallback is reached and `available_cash / len(buy_list)` divides by zero
(`Except.error` models the `ZeroDivisionError`). -/
theorem smartAllocateCash_empty_counterexample :
    smartAllocateCash [] (fun _ => 0) 500 = Except.error () := rfl

/-- C4 amended: for an empty buy list, `smart_allocate_cash` itself reaches
the fallback division with a zero divisor and fails; the empty allocation
mapping is produced by its only caller, `update_portfolio`, which skips the
call when the buy list is empty. -/
theorem smartAllocateCash_empty_amended (resolvedPrice : String → ℚ)
    (availableCash : ℚ) :
    smartAllocateCash [] resolvedPrice availableCash = Except.error () ∧
    updatePortfolioAllocations [] resolvedPrice availableCash =
      Except.ok Dict.empty :=
  ⟨rfl, rfl⟩

end EmptyBuyList

section WorkedExample

/-- The price table of the spec's worked example: `{A: 100, B: 50, C: 30}`. -/
def examplePrice : String → ℚ := fun s =>
  if s = "A" then 100 else if s = "B" then 50 else if s = "C" then 30 else 0

/-- C3 counterexample: on `buy_list = [A, B, C]`, prices
`{A: 100, B: 50, C: 30}` and `available_cash = 300`, the final allocation of
`A` is not the claimed `162.5`: the phase-2 remainder is `120`, not the `150`
the claimed split `62.5 / 50 / 37.5` would require. -/
theorem example_allocation_counterexample :
    allocGet (smartAllocateCash ["A", "B", "C"] examplePrice 300) "A" ≠
      325 / 2 := by
  norm_num +decide [allocGet, smartAllocateCash, buildStockPrices, runPhase1,
    phase1Step, phase2Weights, phase2Distribute, weightOf, examplePrice,
    Dict.set, Dict.get, Dict.empty, List.enum]

/-- C3 amended: phase 1 guarantees `100 + 50 + 30 = 180`; the remaining `120`
is split by the weights `20, 16, 12.8` (total `48.8`), so the phase-2 additions
are `120·20/48.8, 120·16/48.8, 120·12.8/48.8` and the final allocations are
`A = 9100/61 ≈ 149.18`, `B = 5450/61 ≈ 89.34`, `C = 3750/61 ≈ 61.48`; the
phase-2 split is proportional to the weights and sums to `120`, and the whole
allocation sums to `300`. -/
theorem example_allocation_values :
    allocGet (smartAllocateCash ["A", "B", "C"] examplePrice 300) "A" =
        9100 / 61 ∧
    allocGet (smartAllocateCash ["A", "B", "C"] examplePrice 300) "B" =
        5450 / 61 ∧
    allocGet (smartAllocateCash ["A", "B", "C"] examplePrice 300) "C" =
        3750 / 61 ∧
    allocSum (smartAllocateCash ["A", "B", "C"] examplePrice 300) = 300 ∧
    (allocGet (smartAllocateCash ["A", "B", "C"] examplePrice 300) "A" - 100) +
      (allocGet (smartAllocateCash ["A", "B", "C"] examplePrice 300) "B" - 50) +
      (allocGet (smartAllocateCash ["A", "B", "C"] examplePrice 300) "C" - 30) =
        120 ∧
    (allocGet (smartAllocateCash ["A", "B", "C"] examplePrice 300) "A" - 100) *
        (48 + 8 / 10) = 20 * 120 ∧
    (allocGet (smartAllocateCash ["A", "B", "C"] examplePrice 300) "B" - 50) *
        (48 + 8 / 10) = 16 * 120 ∧
    (allocGet (smartAllocateCash ["A", "B", "C"] examplePrice 300) "C" - 30) *
        (48 + 8 / 10) = (12 + 8 / 10) * 120 := by
  norm_num +decide [allocGet, allocSum, smartAllocateCash, buildStockPrices,
    runPhase1, phase1Step, phase2Weights, phase2Distribute, weightOf,
    examplePrice, Dict.set, Dict.get, Dict.empty, Dict.sumValues, List.enum]

end WorkedExample

section NoPriceFallback

lemma buildStockPrices_no_pos (buyList : List String)
    (resolvedPrice : String → ℚ)
    (hnp : ∀ s ∈ buyList, ¬ 0 < resolvedPrice s) :
    buildStockPrices buyList resolvedPrice = Dict.empty := by
  unfold buildStockPrices
  induction buyList with
  | nil => rfl
  | cons a l ih =>
    simp only [List.foldl_cons, if_neg (hnp a (List.mem_cons_self a l))]
    exact ih (fun s hs => hnp s (List.mem_cons_of_mem a hs))

lemma equalSplit_foldl_mem_keys (v : ℚ) (l : List String) :
    ∀ (d : Dict) (s : String),
      s ∈ (l.foldl (fun a s => a.set s v) d).keys ↔ s ∈ d.keys ∨ s ∈ l := by
  induction l with
  | nil => intro d s; simp
  | cons a l ih =>
    intro d s
    rw [List.foldl_cons, ih]
    unfold Dict.set
    by_cases ha : a ∈ d.keys
    · simp only [if_pos ha, List.mem_cons]
      constructor
      · rintro (h | h)
        · exact Or.inl h
        · exact Or.inr (Or.inr h)
      · rintro (h | rfl | h)
        · exact Or.inl h
        · exact Or.inl ha
        · exact Or.inr h
    · simp only [if_neg ha, List.mem_append, List.mem_singleton, List.mem_cons]
      tauto

lemma equalSplit_foldl_get_not_mem (v : ℚ) (l : List String) :
    ∀ (d : Dict) (s : String), s ∉ l →
      (l.foldl (fun a s => a.set s v) d).get s = d.get s := by
  induction l with
  | nil => intro d s _; rfl
  | cons a l ih =>
    intro d s hs
    rw [List.foldl_cons, ih _ _ (fun h => hs (List.mem_cons_of_mem a h))]
    unfold Dict.set Dict.get
    simp only
    rw [if_neg (fun h : s = a => hs (by rw [h]; exact List.mem_cons_self a l))]

lemma equalSplit_foldl_get_mem (v : ℚ) (l : List String) :
    ∀ (d : Dict) (s : String), s ∈ l →
      (l.foldl (fun a s => a.set s v) d).get s = v := by
  induction l with
  | nil => intro d s hs; simp at hs
  | cons a l ih =>
    intro d s hs
    rw [List.foldl_cons]
    by_cases hl : s ∈ l
    · exact ih _ _ hl
    · have hsa : s = a := by
        rcases List.mem_cons.mp hs with h | h
        · exact h
        · exact absurd h hl
      rw [equalSplit_foldl_get_not_mem v l _ _ hl]
      unfold Dict.set Dict.get
      simp only
      rw [if_pos hsa]

/-- C8: for a nonempty buy list none of whose symbols has a resolvable
positive single-unit price, `smart_allocate_cash` succeeds (no error) with the
equal-split fallback: the returned dict's keys are exactly the buy-list
symbols and every buy-list symbol is mapped to
`available_cash / len(buy_list)`. -/
theorem smartAllocateCash_no_prices_equal_split (buyList : List String)
    (resolvedPrice : String → ℚ) (availableCash : ℚ) (hne : buyList ≠ [])
    (hnp : ∀ s ∈ buyList, ¬ 0 < resolvedPrice s) :
    ∃ d, smartAllocateCash buyList resolvedPrice availableCash = Except.ok d ∧
      (∀ s, s ∈ d.keys ↔ s ∈ buyList) ∧
      (∀ s ∈ buyList, d.get s = availableCash / (buyList.length : ℚ)) := by
  unfold smartAllocateCash
  rw [buildStockPrices_no_pos buyList resolvedPrice hnp]
  have hlen : ¬ buyList.length = 0 := fun h => hne (List.length_eq_zero.mp h)
  simp only [Dict.empty, if_pos rfl, if_neg hlen]
  refine ⟨_, rfl, fun s => ?_, fun s hs => ?_⟩
  · rw [equalSplit_foldl_mem_keys]
    simp [Dict.empty]
  · exact equalSplit_foldl_get_mem _ buyList Dict.empty s hs

/-- Witness for C8: two symbols, no resolvable prices, cash `500` splits
`250 / 250`. -/
theorem smartAllocateCash_no_prices_equal_split_witness :
    ((["A", "B"] : List String) ≠ [] ∧
      ∀ s ∈ ["A", "B"], ¬ (0 : ℚ) < (fun _ => (0 : ℚ)) s) ∧
    ∃ d, smartAllocateCash ["A", "B"] (fun _ => 0) 500 = Except.ok d ∧
      (∀ s, s ∈ d.keys ↔ s ∈ ["A", "B"]) ∧
      (∀ s ∈ ["A", "B"], d.get s = 500 / ((["A", "B"] : List String).length : ℚ)) :=
  ⟨⟨by decide, by decide⟩,
    smartAllocateCash_no_prices_equal_split ["A", "B"] (fun _ => 0) 500
      (by decide) (by decide)⟩

end NoPriceFallback

section Ranking

lemma byGainDesc_trans (a b c : String × ℚ) :
    byGainDesc a b → byGainDesc b c → byGainDesc a c := by
  unfold byGainDesc
  simp only [decide_eq_true_eq]
  exact fun h1 h2 => le_trans h2 h1

lemma byGainDesc_total (a b : String × ℚ) : byGainDesc a b || byGainDesc b a := by
  unfold byGainDesc
  simp only [Bool.or_eq_true, decide_eq_true_eq]
  exact le_total b.2 a.2

/-- C7: for every universe (with its symbols pairwise distinct, as in the
NSE 200 table) and every assignment of gains (induced by the per-symbol candle
fetch), `calculate_returns_for_all_stocks` returns a ranking that is a
permutation of the universe containing every instrument exactly once, is
sorted by gain in descending order, and keeps symbols of equal gain in the
universe's input iteration order (stable sort). -/
theorem calculateReturns_ranking (univList : List String)
    (fetch : String → Option (List Candle)) (hnd : univList.Nodup) :
    ((calculateReturnsForAllStocks univList fetch).map RankedStock.symbol).Perm
        univList ∧
    (∀ s ∈ univList,
      ((calculateReturnsForAllStocks univList fetch).map RankedStock.symbol).count
        s = 1) ∧
    (calculateReturnsForAllStocks univList fetch).Pairwise
        (fun a b => b.gain ≤ a.gain) ∧
    (∀ s t : String, [s, t].Sublist univList →
      gainOf (fetch s) = gainOf (fetch t) →
      ([⟨s, gainOf (fetch s)⟩, ⟨t, gainOf (fetch t)⟩] : List RankedStock).Sublist
        (calculateReturnsForAllStocks univList fetch)) := by
  have hperm :
      ((univList.map (fun s => (s, gainOf (fetch s)))).mergeSort byGainDesc).Perm
        (univList.map (fun s => (s, gainOf (fetch s)))) :=
    List.mergeSort_perm _ _
  have hsym :
      ((calculateReturnsForAllStocks univList fetch).map RankedStock.symbol).Perm
        univList := by
    unfold calculateReturnsForAllStocks
    simp only [List.map_map]
    have := hperm.map Prod.fst
    simp only [List.map_map] at this
    have h2 : univList.map (Prod.fst ∘ fun s => (s, gainOf (fetch s))) = univList := by
      rw [show (Prod.fst ∘ fun s : String => (s, gainOf (fetch s))) = id from rfl,
        List.map_id]
    rw [h2] at this
    exact this
  refine ⟨hsym, ?_, ?_, ?_⟩
  · intro s hs
    rw [hsym.count_eq]
    exact List.count_eq_one_of_mem hnd hs
  · unfold calculateReturnsForAllStocks
    simp only
    refine List.Pairwise.map _ ?_
      (List.sorted_mergeSort byGainDesc_trans byGainDesc_total
        (univList.map (fun s => (s, gainOf (fetch s)))))
    intro a b hab
    simpa [byGainDesc] using hab
  · intro s t hsub heq
    have h1 : [(s, gainOf (fetch s)), (t, gainOf (fetch t))].Sublist
        (univList.map (fun s => (s, gainOf (fetch s)))) :=
      hsub.map (fun s => (s, gainOf (fetch s)))
    have hab : byGainDesc (s, gainOf (fetch s)) (t, gainOf (fetch t)) := by
      simp [byGainDesc, heq]
    have h2 := List.pair_sublist_mergeSort byGainDesc_trans byGainDesc_total hab h1
    unfold calculateReturnsForAllStocks
    simpa using h2.map (fun p => ({ symbol := p.1, gain := p.2 } : RankedStock))

end Ranking

/-- An always-failing candle fetch, for concrete witnesses. -/
def noFetch : String → Option (List Candle) := fun _ => none

/-- Witness for C7 at a concrete two-symbol universe whose fetches fail. -/
theorem calculateReturns_ranking_witness :
    (["A", "B"] : List String).Nodup ∧
    (((calculateReturnsForAllStocks ["A", "B"] noFetch).map
        RankedStock.symbol).Perm ["A", "B"] ∧
      (∀ s ∈ ["A", "B"],
        ((calculateReturnsForAllStocks ["A", "B"] noFetch).map
          RankedStock.symbol).count s = 1) ∧
      (calculateReturnsForAllStocks ["A", "B"] noFetch).Pairwise
          (fun a b => b.gain ≤ a.gain) ∧
      (∀ s t : String, [s, t].Sublist ["A", "B"] →
        gainOf (noFetch s) = gainOf (noFetch t) →
        ([⟨s, gainOf (noFetch s)⟩, ⟨t, gainOf (noFetch t)⟩] :
          List RankedStock).Sublist
          (calculateReturnsForAllStocks ["A", "B"] noFetch))) :=
  ⟨by decide, calculateReturns_ranking ["A", "B"] noFetch (by decide)⟩


section GainFormula

lemma byDateDesc_trans (a b c : Candle) :
    byDateDesc a b → byDateDesc b c → byDateDesc a c := by
  unfold byDateDesc
  simp only [decide_eq_true_eq]
  exact fun h1 h2 => le_trans h2 h1

lemma byDateDesc_total (a b : Candle) : byDateDesc a b || byDateDesc b a := by
  unfold byDateDesc
  simp only [Bool.or_eq_true, decide_eq_true_eq]
  exact le_total (datesort b) (datesort a)

lemma pairwise_rel_head {α : Type} {R : α → α → Prop} (l : List α) (hne : l ≠ [])
    (hp : l.Pairwise R) (a : α) (ha : a ∈ l) : a = l.head hne ∨ R (l.head hne) a := by
  cases l with
  | nil => exact absurd rfl hne
  | cons x t =>
    rcases List.mem_cons.mp ha with rfl | ha'
    · exact Or.inl rfl
    · exact Or.inr ((List.pairwise_cons.mp hp).1 a ha')

lemma pairwise_rel_getLast {α : Type} {R : α → α → Prop} :
    ∀ (l : List α) (hne : l ≠ []) (_ : l.Pairwise R) (a : α), a ∈ l →
      a = l.getLast hne ∨ R a (l.getLast hne)
  | [], hne, _, _, _ => absurd rfl hne
  | [x], _, _, a, ha => by
    rcases List.mem_singleton.mp ha with rfl
    exact Or.inl rfl
  | x :: y :: t, hne, hp, a, ha => by
    have hyt : (y :: t) ≠ ([] : List α) := List.cons_ne_nil y t
    have hlast : (x :: y :: t).getLast hne = (y :: t).getLast hyt :=
      List.getLast_cons hyt
    rcases List.mem_cons.mp ha with rfl | ha'
    · right
      rw [hlast]
      exact (List.pairwise_cons.mp hp).1 _ (List.getLast_mem hyt)
    · rw [hlast]
      exact pairwise_rel_getLast (y :: t) hyt (List.pairwise_cons.mp hp).2 a ha'

/-- C6: the ranking pipeline's per-instrument gain is
`(latest_close - earliest_close) / earliest_close` over the fetched candle
window (latest/earliest by timestamp; the window's timestamps are pairwise
distinct), and the gain is exactly `0` — the instrument is not excluded —
whenever the fetch fails, the window has no candles, or the earliest close is
zero. -/
theorem ranking_gain_zero_or_formula :
    gainOf none = 0 ∧ gainOf (some []) = 0 ∧
    ∀ (candles : List Candle) (cmax cmin : Candle),
      candles.Pairwise (fun a b => a.ts ≠ b.ts) →
      cmax ∈ candles → (∀ c ∈ candles, c.ts ≤ cmax.ts) →
      cmin ∈ candles → (∀ c ∈ candles, cmin.ts ≤ c.ts) →
      (cmin.close = 0 → gainOf (some candles) = 0) ∧
      (cmin.close ≠ 0 →
        gainOf (some candles) = (cmax.close - cmin.close) / cmin.close) := by
  refine ⟨rfl, rfl, ?_⟩
  intro candles cmax cmin hinj hmax hmaxall hmin hminall
  have hne : candles ≠ [] := List.ne_nil_of_mem hmax
  have hMne : candles.mergeSort byDateDesc ≠ [] := by
    intro h
    have hp := List.mergeSort_perm candles byDateDesc
    rw [h] at hp
    exact hne hp.symm.eq_nil
  have hsorted : (candles.mergeSort byDateDesc).Pairwise (fun a b => b.ts ≤ a.ts) := by
    refine (List.sorted_mergeSort byDateDesc_trans byDateDesc_total candles).imp ?_
    intro a b hab
    simpa [byDateDesc, datesort] using hab
  have hinj2 : ∀ a ∈ candles, ∀ b ∈ candles, a.ts = b.ts → a = b := by
    intro a ha b hb hab
    by_contra hne2
    have hsymm : Symmetric (fun a b : Candle => a.ts ≠ b.ts) := by
      intro x y h e
      exact h e.symm
    exact List.Pairwise.forall hsymm hinj ha hb hne2 hab
  have hheadmem : (candles.mergeSort byDateDesc).head hMne ∈ candles :=
    List.mem_mergeSort.mp (List.head_mem hMne)
  have hlastmem : (candles.mergeSort byDateDesc).getLast hMne ∈ candles :=
    List.mem_mergeSort.mp (List.getLast_mem hMne)
  have hhead_eq : (candles.mergeSort byDateDesc).head hMne = cmax := by
    rcases pairwise_rel_head (candles.mergeSort byDateDesc) hMne hsorted cmax
        (List.mem_mergeSort.mpr hmax) with h | h
    · exact h.symm
    · exact hinj2 _ hheadmem _ hmax
        (le_antisymm (hmaxall _ hheadmem) h)
  have hlast_eq : (candles.mergeSort byDateDesc).getLast hMne = cmin := by
    rcases pairwise_rel_getLast (candles.mergeSort byDateDesc) hMne hsorted cmin
        (List.mem_mergeSort.mpr hmin) with h | h
    · exact h.symm
    · exact hinj2 _ hlastmem _ hmin (le_antisymm h (hminall _ hlastmem))
  have hproc : processCandleData candles =
      if cmin.close = 0 then none
      else some ((cmax.close - cmin.close) / cmin.close) := by
    unfold processCandleData
    rw [if_neg hne]
    simp only [List.getLast?_eq_getLast _ hMne, List.head?_eq_head hMne,
      Option.getD_some, hhead_eq, hlast_eq]
  constructor
  · intro h0
    show (getReturns (some candles)).getD 0 = 0
    show (processCandleData candles).getD 0 = 0
    rw [hproc, if_pos h0]
    rfl
  · intro h0
    show (processCandleData candles).getD 0 = (cmax.close - cmin.close) / cmin.close
    rw [hproc, if_neg h0]
    rfl

end GainFormula

/-- Witness for C6 on a two-candle window: close `100` at the earliest date,
`110` at the latest, gain `(110 - 100) / 100`. -/
theorem ranking_gain_zero_or_formula_witness :
    (([⟨0, 100⟩, ⟨1, 110⟩] : List Candle).Pairwise (fun a b => a.ts ≠ b.ts) ∧
      (⟨1, 110⟩ : Candle) ∈ ([⟨0, 100⟩, ⟨1, 110⟩] : List Candle) ∧
      (⟨0, 100⟩ : Candle) ∈ ([⟨0, 100⟩, ⟨1, 110⟩] : List Candle) ∧
      (⟨0, 100⟩ : Candle).close ≠ 0) ∧
    gainOf (some [⟨0, 100⟩, ⟨1, 110⟩]) =
      ((⟨1, 110⟩ : Candle).close - (⟨0, 100⟩ : Candle).close) /
        (⟨0, 100⟩ : Candle).close :=
  ⟨⟨by decide, by norm_num, by norm_num, by norm_num⟩,
    (ranking_gain_zero_or_formula.2.2 [⟨0, 100⟩, ⟨1, 110⟩] ⟨1, 110⟩ ⟨0, 100⟩
      (by decide) (by norm_num) (by decide) (by norm_num) (by decide)).2
      (by norm_num)⟩

section DictLemmas

lemma Dict.keys_set_of_mem (d : Dict) (k : String) (v : ℚ) (h : k ∈ d.keys) :
    (d.set k v).keys = d.keys := by
  unfold Dict.set
  simp only [if_pos h]

lemma Dict.keys_set_of_not_mem (d : Dict) (k : String) (v : ℚ) (h : k ∉ d.keys) :
    (d.set k v).keys = d.keys ++ [k] := by
  unfold Dict.set
  simp only [if_neg h]

lemma Dict.mem_keys_set (d : Dict) (k : String) (v : ℚ) (s : String) :
    s ∈ (d.set k v).keys ↔ s ∈ d.keys ∨ s = k := by
  by_cases h : k ∈ d.keys
  · rw [Dict.keys_set_of_mem d k v h]
    constructor
    · exact Or.inl
    · rintro (hs | rfl)
      · exact hs
      · exact h
  · rw [Dict.keys_set_of_not_mem d k v h]
    simp

lemma Dict.get_set_self (d : Dict) (k : String) (v : ℚ) : (d.set k v).get k = v := by
  unfold Dict.set Dict.get
  simp

lemma Dict.get_set_ne (d : Dict) (k : String) (v : ℚ) (s : String) (h : s ≠ k) :
    (d.set k v).get s = d.get s := by
  unfold Dict.set Dict.get
  simp only [if_neg h]

lemma Dict.sumValues_set_of_not_mem (d : Dict) (k : String) (v : ℚ)
    (h : k ∉ d.keys) : (d.set k v).sumValues = d.sumValues + v := by
  unfold Dict.sumValues
  rw [Dict.keys_set_of_not_mem d k v h, List.map_append, List.sum_append]
  congr 1
  · congr 1
    refine List.map_congr_left ?_
    intro s hs
    show (if s = k then v else d.val s) = d.val s
    rw [if_neg (fun e : s = k => h (e ▸ hs))]
  · show (if k = k then v else d.val k) + 0 = v
    simp

lemma map_ite_update_sum (val : String → ℚ) (k : String) (v : ℚ) :
    ∀ (ks : List String), ks.Nodup → k ∈ ks →
    (ks.map (fun s => if s = k then v else val s)).sum =
      (ks.map val).sum - val k + v := by
  intro ks
  induction ks with
  | nil => intro _ h; simp at h
  | cons a t ih =>
    intro hnd hk
    rcases List.mem_cons.mp hk with rfl | hk'
    · have hnot : k ∉ t := (List.nodup_cons.mp hnd).1
      simp only [List.map_cons, List.sum_cons, if_pos rfl]
      have ht : t.map (fun s => if s = k then v else val s) = t.map val := by
        refine List.map_congr_left ?_
        intro s hs
        rw [if_neg (fun e : s = k => hnot (e ▸ hs))]
      rw [ht]
      simp [add_comm]
    · have ha : ¬ a = k := by
        intro e
        exact (List.nodup_cons.mp hnd).1 (e ▸ hk')
      simp only [List.map_cons, List.sum_cons, if_neg ha]
      rw [ih (List.nodup_cons.mp hnd).2 hk']
      ring

lemma Dict.sumValues_set_of_mem (d : Dict) (k : String) (v : ℚ)
    (h : k ∈ d.keys) (hnd : d.keys.Nodup) :
    (d.set k v).sumValues = d.sumValues - d.get k + v := by
  unfold Dict.sumValues
  rw [Dict.keys_set_of_mem d k v h]
  exact map_ite_update_sum d.val k v d.keys hnd h

lemma list_sum_map_mul (l : List String) (f : String → ℚ) (c : ℚ) :
    (l.map (fun s => f s * c)).sum = (l.map f).sum * c := by
  induction l with
  | nil => simp
  | cons a t ih => simp only [List.map_cons, List.sum_cons, ih, add_mul]

lemma list_sum_map_const (l : List String) (c : ℚ) :
    (l.map (fun _ => c)).sum = l.length * c := by
  induction l with
  | nil => simp
  | cons a t ih =>
    simp only [List.map_cons, List.sum_cons, ih, List.length_cons]
    push_cast
    ring

end DictLemmas

section StockPrices

lemma buildStockPrices_foldl_spec (resolvedPrice : String → ℚ) :
    ∀ (l : List String) (d : Dict),
    (∀ s ∈ d.keys, d.get s = resolvedPrice s ∧ 0 < resolvedPrice s) →
    (∀ s, s ∈ (l.foldl
        (fun sp s => if 0 < resolvedPrice s then sp.set s (resolvedPrice s) else sp)
        d).keys ↔ s ∈ d.keys ∨ (s ∈ l ∧ 0 < resolvedPrice s)) ∧
    (∀ s ∈ (l.foldl
        (fun sp s => if 0 < resolvedPrice s then sp.set s (resolvedPrice s) else sp)
        d).keys,
      (l.foldl
        (fun sp s => if 0 < resolvedPrice s then sp.set s (resolvedPrice s) else sp)
        d).get s = resolvedPrice s ∧ 0 < resolvedPrice s) := by
  intro l
  induction l with
  | nil =>
    intro d hd
    refine ⟨fun s => ?_, hd⟩
    simp
  | cons a t ih =>
    intro d hd
    by_cases ha : 0 < resolvedPrice a
    · have hd' : ∀ s ∈ (d.set a (resolvedPrice a)).keys,
          (d.set a (resolvedPrice a)).get s = resolvedPrice s ∧
            0 < resolvedPrice s := by
        intro s hs
        by_cases hsa : s = a
        · subst hsa
          rw [Dict.get_set_self]
          exact ⟨rfl, ha⟩
        · rw [Dict.get_set_ne d a (resolvedPrice a) s hsa]
          rcases (Dict.mem_keys_set d a (resolvedPrice a) s).mp hs with h | h
          · exact hd s h
          · exact absurd h hsa
      obtain ⟨hmem, hget⟩ := ih (d.set a (resolvedPrice a)) hd'
      refine ⟨fun s => ?_, ?_⟩
      · simp only [List.foldl_cons, if_pos ha]
        rw [hmem s, Dict.mem_keys_set]
        constructor
        · rintro ((h | rfl) | ⟨h1, h2⟩)
          · exact Or.inl h
          · exact Or.inr ⟨List.mem_cons_self s t, ha⟩
          · exact Or.inr ⟨List.mem_cons_of_mem _ h1, h2⟩
        · rintro (h | ⟨h1, h2⟩)
          · exact Or.inl (Or.inl h)
          · rcases List.mem_cons.mp h1 with rfl | h1'
            · exact Or.inl (Or.inr rfl)
            · exact Or.inr ⟨h1', h2⟩
      · simp only [List.foldl_cons, if_pos ha]
        exact hget
    · simp only [List.foldl_cons, if_neg ha]
      obtain ⟨hmem, hget⟩ := ih d hd
      refine ⟨fun s => ?_, hget⟩
      rw [hmem s]
      constructor
      · rintro (h | ⟨h1, h2⟩)
        · exact Or.inl h
        · exact Or.inr ⟨List.mem_cons_of_mem a h1, h2⟩
      · rintro (h | ⟨h1, h2⟩)
        · exact Or.inl h
        · rcases List.mem_cons.mp h1 with rfl | h1'
          · exact absurd h2 ha
          · exact Or.inr ⟨h1', h2⟩

lemma buildStockPrices_mem (buyList : List String) (resolvedPrice : String → ℚ)
    (s : String) :
    s ∈ (buildStockPrices buyList resolvedPrice).keys ↔
      s ∈ buyList ∧ 0 < resolvedPrice s := by
  unfold buildStockPrices
  rw [(buildStockPrices_foldl_spec resolvedPrice buyList Dict.empty
    (by intro s hs; exact absurd hs (by simp [Dict.empty]))).1 s]
  simp [Dict.empty]

lemma buildStockPrices_get (buyList : List String) (resolvedPrice : String → ℚ)
    (s : String) (h : s ∈ (buildStockPrices buyList resolvedPrice).keys) :
    (buildStockPrices buyList resolvedPrice).get s = resolvedPrice s ∧
      0 < resolvedPrice s :=
  (buildStockPrices_foldl_spec resolvedPrice buyList Dict.empty
    (by intro s hs; exact absurd hs (by simp [Dict.empty]))).2 s h

end StockPrices

section Phase1Lemmas

lemma phase1Step_eq (sp : Dict) (st : Phase1State) (a : String) :
    (a ∈ sp.keys ∧ sp.get a ≤ st.remainingCash ∧
      phase1Step sp st a =
        { allocations := st.allocations.set a (sp.get a),
          guaranteed := st.guaranteed + sp.get a,
          remainingCash := st.remainingCash - sp.get a,
          affordableStocks := st.affordableStocks ++ [a] }) ∨
    ((a ∉ sp.keys ∨ ¬ sp.get a ≤ st.remainingCash) ∧ phase1Step sp st a = st) := by
  unfold phase1Step
  by_cases h1 : a ∈ sp.keys
  · by_cases h2 : sp.get a ≤ st.remainingCash
    · exact Or.inl ⟨h1, h2, by rw [if_pos h1]; exact if_pos h2⟩
    · exact Or.inr ⟨Or.inr h2, by rw [if_pos h1]; exact if_neg h2⟩
  · exact Or.inr ⟨Or.inl h1, if_neg h1⟩

lemma phase1_foldl_inv (sp : Dict) :
    ∀ (l : List String) (st : Phase1State),
    l.Nodup → (∀ s ∈ l, s ∉ st.affordableStocks) →
    st.allocations.keys = st.affordableStocks →
    st.affordableStocks.Nodup →
    st.allocations.sumValues = st.guaranteed →
    (∀ s ∈ st.affordableStocks,
      s ∈ sp.keys ∧ st.allocations.get s = sp.get s) →
    ((l.foldl (phase1Step sp) st).allocations.keys =
        (l.foldl (phase1Step sp) st).affordableStocks ∧
      (l.foldl (phase1Step sp) st).affordableStocks.Nodup ∧
      (l.foldl (phase1Step sp) st).allocations.sumValues =
        (l.foldl (phase1Step sp) st).guaranteed ∧
      (∀ s ∈ (l.foldl (phase1Step sp) st).affordableStocks,
        s ∈ sp.keys ∧
          (l.foldl (phase1Step sp) st).allocations.get s = sp.get s) ∧
      (l.foldl (phase1Step sp) st).guaranteed +
          (l.foldl (phase1Step sp) st).remainingCash =
        st.guaranteed + st.remainingCash ∧
      (0 ≤ st.remainingCash → 0 ≤ (l.foldl (phase1Step sp) st).remainingCash)) := by
  intro l
  induction l with
  | nil =>
    intro st _ _ h1 h2 h3 h4
    exact ⟨h1, h2, h3, h4, rfl, fun h => h⟩
  | cons a t ih =>
    intro st hnd hfresh h1 h2 h3 h4
    rw [List.foldl_cons]
    rcases phase1Step_eq sp st a with ⟨hak, hale, heq⟩ | ⟨_, heq⟩
    · rw [heq]
      have hanotaff : a ∉ st.affordableStocks := hfresh a (List.mem_cons_self a t)
      have hanotkeys : a ∉ st.allocations.keys := h1 ▸ hanotaff
      have hk' : (st.allocations.set a (sp.get a)).keys =
          st.affordableStocks ++ [a] := by
        rw [Dict.keys_set_of_not_mem _ _ _ hanotkeys, h1]
      obtain ⟨c1, c2, c3, c4, c5, c6⟩ := ih
        { allocations := st.allocations.set a (sp.get a),
          guaranteed := st.guaranteed + sp.get a,
          remainingCash := st.remainingCash - sp.get a,
          affordableStocks := st.affordableStocks ++ [a] }
        (List.nodup_cons.mp hnd).2
        (by
          intro s hs
          simp only [List.mem_append, List.mem_singleton]
          rintro (h | rfl)
          · exact hfresh s (List.mem_cons_of_mem a hs) h
          · exact (List.nodup_cons.mp hnd).1 hs)
        hk'
        (by
          refine List.Nodup.append h2 (List.nodup_singleton a) ?_
          intro x hx hax
          rw [List.mem_singleton] at hax
          exact hanotaff (hax ▸ hx))
        (by
          show (st.allocations.set a (sp.get a)).sumValues =
            st.guaranteed + sp.get a
          rw [Dict.sumValues_set_of_not_mem _ _ _ hanotkeys, h3])
        (by
          intro s hs
          simp only [List.mem_append, List.mem_singleton] at hs
          rcases hs with hs | rfl
          · have hne2 : s ≠ a := fun e => hanotaff (e ▸ hs)
            rw [Dict.get_set_ne _ _ _ _ hne2]
            exact h4 s hs
          · rw [Dict.get_set_self]
            exact ⟨hak, rfl⟩)
      refine ⟨c1, c2, c3, c4, ?_, ?_⟩
      · rw [c5]
        show st.guaranteed + sp.get a + (st.remainingCash - sp.get a) = _
        ring
      · intro h0
        refine c6 ?_
        show 0 ≤ st.remainingCash - sp.get a
        linarith
    · rw [heq]
      exact ih st (List.nodup_cons.mp hnd).2
        (fun s hs => hfresh s (List.mem_cons_of_mem a hs)) h1 h2 h3 h4

lemma phase1_foldl_afford_ne (sp : Dict) :
    ∀ (l : List String) (st : Phase1State),
    ((∃ s ∈ l, s ∈ sp.keys ∧ sp.get s ≤ st.remainingCash) ∨
      st.affordableStocks ≠ []) →
    (l.foldl (phase1Step sp) st).affordableStocks ≠ [] := by
  intro l
  induction l with
  | nil =>
    intro st h
    rcases h with ⟨s, hs, _⟩ | h
    · simp at hs
    · exact h
  | cons a t ih =>
    intro st h
    rw [List.foldl_cons]
    rcases phase1Step_eq sp st a with ⟨_, _, heq⟩ | ⟨hcond, heq⟩
    · rw [heq]
      refine ih _ (Or.inr ?_)
      simp
    · rw [heq]
      rcases h with ⟨s, hs, hsk, hsle⟩ | hne
      · rcases List.mem_cons.mp hs with rfl | hs'
        · rcases hcond with h | h
          · exact absurd hsk h
          · exact absurd hsle h
        · exact ih st (Or.inl ⟨s, hs', hsk, hsle⟩)
      · exact ih st (Or.inr hne)

end Phase1Lemmas

section Phase2Lemmas

lemma weightOf_pos (i : ℕ) : 0 < weightOf i := by
  unfold weightOf
  have h1 : (0 : ℚ) < (4 / 5 : ℚ) ^ i := pow_pos (by norm_num) i
  linarith

lemma weights_foldl_spec :
    ∀ (ps : List (ℕ × String)) (acc : Dict × ℚ),
    (ps.map Prod.snd).Nodup →
    ((∀ s, s ∉ ps.map Prod.snd →
        (ps.foldl
          (fun acc p => (acc.1.set p.2 (weightOf p.1), acc.2 + weightOf p.1))
          acc).1.get s = acc.1.get s) ∧
      (∀ p ∈ ps,
        (ps.foldl
          (fun acc p => (acc.1.set p.2 (weightOf p.1), acc.2 + weightOf p.1))
          acc).1.get p.2 = weightOf p.1) ∧
      (ps.foldl
          (fun acc p => (acc.1.set p.2 (weightOf p.1), acc.2 + weightOf p.1))
          acc).2 = acc.2 + (ps.map (fun p => weightOf p.1)).sum) := by
  intro ps
  induction ps with
  | nil =>
    intro acc _
    exact ⟨fun s _ => rfl, fun p hp => absurd hp (List.not_mem_nil p), by simp⟩
  | cons p t ih =>
    intro acc hnd
    have hndt : (t.map Prod.snd).Nodup := (List.nodup_cons.mp hnd).2
    have hpt : p.2 ∉ t.map Prod.snd := (List.nodup_cons.mp hnd).1
    obtain ⟨u1, u2, u3⟩ := ih (acc.1.set p.2 (weightOf p.1), acc.2 + weightOf p.1) hndt
    refine ⟨?_, ?_, ?_⟩
    · intro s hs
      simp only [List.map_cons, List.mem_cons] at hs
      push_neg at hs
      rw [List.foldl_cons, u1 s hs.2]
      exact Dict.get_set_ne _ _ _ _ hs.1
    · intro q hq
      rcases List.mem_cons.mp hq with rfl | hq'
      · rw [List.foldl_cons, u1 q.2 hpt]
        exact Dict.get_set_self _ _ _
      · rw [List.foldl_cons]
        exact u2 q hq'
    · rw [List.foldl_cons, u3]
      simp only [List.map_cons, List.sum_cons]
      ring

lemma distribute_foldl_spec (wd : Dict) (W R : ℚ) :
    ∀ (l : List String) (a : Dict),
    l.Nodup → (∀ s ∈ l, s ∈ a.keys) → a.keys.Nodup →
    ((l.foldl (fun a s => a.set s (a.get s + wd.get s / W * R)) a).keys =
        a.keys ∧
      (∀ s, s ∉ l →
        (l.foldl (fun a s => a.set s (a.get s + wd.get s / W * R)) a).get s =
          a.get s) ∧
      (∀ s ∈ l,
        (l.foldl (fun a s => a.set s (a.get s + wd.get s / W * R)) a).get s =
          a.get s + wd.get s / W * R) ∧
      (l.foldl (fun a s => a.set s (a.get s + wd.get s / W * R)) a).sumValues =
        a.sumValues + (l.map (fun s => wd.get s / W * R)).sum) := by
  intro l
  induction l with
  | nil =>
    intro a _ _ _
    exact ⟨rfl, fun s _ => rfl, fun s hs => absurd hs (List.not_mem_nil s), by simp⟩
  | cons s0 t ih =>
    intro a hnd hsub hknd
    have hs0 : s0 ∈ a.keys := hsub s0 (List.mem_cons_self s0 t)
    have hkeq : (a.set s0 (a.get s0 + wd.get s0 / W * R)).keys = a.keys :=
      Dict.keys_set_of_mem _ _ _ hs0
    have hs0t : s0 ∉ t := (List.nodup_cons.mp hnd).1
    obtain ⟨u1, u2, u3, u4⟩ := ih (a.set s0 (a.get s0 + wd.get s0 / W * R))
      (List.nodup_cons.mp hnd).2
      (by intro s hs; rw [hkeq]; exact hsub s (List.mem_cons_of_mem s0 hs))
      (by rw [hkeq]; exact hknd)
    refine ⟨?_, ?_, ?_, ?_⟩
    · rw [List.foldl_cons, u1, hkeq]
    · intro s hs
      simp only [List.mem_cons] at hs
      push_neg at hs
      rw [List.foldl_cons, u2 s hs.2]
      exact Dict.get_set_ne _ _ _ _ hs.1
    · intro s hs
      rcases List.mem_cons.mp hs with rfl | hs'
      · rw [List.foldl_cons, u2 s hs0t]
        exact Dict.get_set_self _ _ _
      · have hne2 : s ≠ s0 := fun e => hs0t (e ▸ hs')
        rw [List.foldl_cons, u3 s hs', Dict.get_set_ne _ _ _ _ hne2]
    · rw [List.foldl_cons, u4, Dict.sumValues_set_of_mem _ _ _ hs0 hknd]
      simp only [List.map_cons, List.sum_cons]
      ring

end Phase2Lemmas
section AllocationMain

lemma phase2Weights_spec (aff : List String) (hnd : aff.Nodup) :
    (aff.map (phase2Weights aff).1.get).sum = (phase2Weights aff).2 ∧
    (∀ s ∈ aff, 0 < (phase2Weights aff).1.get s) ∧
    (aff ≠ [] → 0 < (phase2Weights aff).2) := by
  obtain ⟨u1, u2, u3⟩ := weights_foldl_spec aff.enum (Dict.empty, 0)
    (by rw [List.enum_map_snd]; exact hnd)
  have key : aff.map (phase2Weights aff).1.get =
      aff.enum.map (fun p => weightOf p.1) := by
    have h0 : aff.map (phase2Weights aff).1.get =
        (aff.enum.map Prod.snd).map (phase2Weights aff).1.get := by
      rw [List.enum_map_snd]
    rw [h0, List.map_map]
    exact List.map_congr_left (fun p hp => u2 p hp)
  have hW2 : (phase2Weights aff).2 =
      (aff.enum.map (fun p => weightOf p.1)).sum := by
    show (aff.enum.foldl
      (fun acc p => (acc.1.set p.2 (weightOf p.1), acc.2 + weightOf p.1))
      (Dict.empty, 0)).2 = _
    rw [u3]
    ring
  refine ⟨by rw [key, hW2], ?_, ?_⟩
  · intro s hs
    have hs2 : s ∈ aff.enum.map Prod.snd := by
      rw [List.enum_map_snd]
      exact hs
    obtain ⟨p, hp, hpe⟩ := List.mem_map.mp hs2
    have := u2 p hp
    rw [← hpe]
    show 0 < (aff.enum.foldl
      (fun acc p => (acc.1.set p.2 (weightOf p.1), acc.2 + weightOf p.1))
      (Dict.empty, 0)).1.get p.2
    rw [this]
    exact weightOf_pos p.1
  · intro hne
    rw [hW2]
    refine List.sum_pos _ ?_ ?_
    · intro x hx
      obtain ⟨p, _, rfl⟩ := List.mem_map.mp hx
      exact weightOf_pos p.1
    · intro h
      have h2 := congrArg List.length h
      simp only [List.length_map, List.enum_length, List.length_nil] at h2
      exact hne (List.length_eq_zero.mp h2)

lemma distribute_sum_total (wd : Dict) (W R : ℚ) (hW : W ≠ 0)
    (l : List String) (hsum : (l.map wd.get).sum = W) :
    (l.map (fun s => wd.get s / W * R)).sum = R := by
  have h1 : l.map (fun s => wd.get s / W * R) =
      l.map (fun s => wd.get s * (R / W)) := by
    refine List.map_congr_left ?_
    intro s _
    show wd.get s / W * R = wd.get s * (R / W)
    rw [div_mul_eq_mul_div, mul_div_assoc]
  rw [h1, list_sum_map_mul, hsum, mul_comm, div_mul_cancel₀ _ hW]

lemma runPhase1_spec (buyList : List String) (sp : Dict) (cash : ℚ)
    (hnd : buyList.Nodup) :
    (runPhase1 buyList sp cash).allocations.keys =
      (runPhase1 buyList sp cash).affordableStocks ∧
    (runPhase1 buyList sp cash).affordableStocks.Nodup ∧
    (runPhase1 buyList sp cash).allocations.sumValues =
      (runPhase1 buyList sp cash).guaranteed ∧
    (∀ s ∈ (runPhase1 buyList sp cash).affordableStocks,
      s ∈ sp.keys ∧ (runPhase1 buyList sp cash).allocations.get s = sp.get s) ∧
    (runPhase1 buyList sp cash).guaranteed +
      (runPhase1 buyList sp cash).remainingCash = cash ∧
    (0 ≤ cash → 0 ≤ (runPhase1 buyList sp cash).remainingCash) := by
  unfold runPhase1
  obtain ⟨c1, c2, c3, c4, c5, c6⟩ := phase1_foldl_inv sp buyList
    { allocations := Dict.empty, guaranteed := 0,
      remainingCash := cash, affordableStocks := [] }
    hnd (fun s _ h => absurd h (List.not_mem_nil s)) rfl List.nodup_nil rfl
    (fun s hs => absurd hs (List.not_mem_nil s))
  refine ⟨c1, c2, c3, c4, ?_, c6⟩
  rw [c5]
  ring

lemma runPhase1_afford_ne (buyList : List String) (sp : Dict) (cash : ℚ)
    (hex : ∃ s ∈ buyList, s ∈ sp.keys ∧ sp.get s ≤ cash) :
    (runPhase1 buyList sp cash).affordableStocks ≠ [] := by
  unfold runPhase1
  exact phase1_foldl_afford_ne sp buyList _ (Or.inl hex)

lemma smart_allocate_ok_guarantee (buyList : List String)
    (resolvedPrice : String → ℚ) (availableCash : ℚ) (hnd : buyList.Nodup)
    (hex : ∃ s ∈ buyList,
      0 < resolvedPrice s ∧ resolvedPrice s ≤ availableCash) :
    ∃ d, smartAllocateCash buyList resolvedPrice availableCash = Except.ok d ∧
      d.sumValues = availableCash ∧ ∃ s ∈ d.keys, 0 < d.get s := by
  obtain ⟨s0, hs0l, hs0pos, hs0le⟩ := hex
  have hs0k : s0 ∈ (buildStockPrices buyList resolvedPrice).keys :=
    (buildStockPrices_mem buyList resolvedPrice s0).mpr ⟨hs0l, hs0pos⟩
  have hkne : ¬ (buildStockPrices buyList resolvedPrice).keys = [] := by
    intro h
    rw [h] at hs0k
    exact List.not_mem_nil s0 hs0k
  obtain ⟨c1, c2, c3, c4, c5, c6⟩ := runPhase1_spec buyList
    (buildStockPrices buyList resolvedPrice) availableCash hnd
  have hcash0 : (0 : ℚ) ≤ availableCash := le_trans hs0pos.le hs0le
  have hrem0 := c6 hcash0
  have hget0 := buildStockPrices_get buyList resolvedPrice s0 hs0k
  have haffne : (runPhase1 buyList (buildStockPrices buyList resolvedPrice)
      availableCash).affordableStocks ≠ [] :=
    runPhase1_afford_ne buyList _ availableCash
      ⟨s0, hs0l, hs0k, by rw [hget0.1]; exact hs0le⟩
  obtain ⟨sa, hsa⟩ := List.exists_mem_of_ne_nil _ haffne
  have hsa_facts := c4 sa hsa
  have hsa_pos : 0 < (runPhase1 buyList (buildStockPrices buyList resolvedPrice)
      availableCash).allocations.get sa := by
    rw [hsa_facts.2,
      (buildStockPrices_get buyList resolvedPrice sa hsa_facts.1).1]
    exact (buildStockPrices_get buyList resolvedPrice sa hsa_facts.1).2
  obtain ⟨w1, w2, w3⟩ := phase2Weights_spec
    (runPhase1 buyList (buildStockPrices buyList resolvedPrice)
      availableCash).affordableStocks c2
  simp only [smartAllocateCash]
  rw [if_neg hkne]
  set p1 := runPhase1 buyList (buildStockPrices buyList resolvedPrice)
    availableCash with hp1def
  by_cases hrem : 0 < p1.remainingCash
  · rw [if_pos ⟨hrem, haffne⟩]
    obtain ⟨d1, d2, d3, d4⟩ := distribute_foldl_spec
      (phase2Weights p1.affordableStocks).1 (phase2Weights p1.affordableStocks).2
      p1.remainingCash p1.affordableStocks p1.allocations
      c2 (by rw [c1]; exact fun s hs => hs) (by rw [c1]; exact c2)
    refine ⟨_, rfl, ?_, ⟨sa, ?_, ?_⟩⟩
    · show (phase2Distribute p1.allocations p1.affordableStocks
        (phase2Weights p1.affordableStocks).1
        (phase2Weights p1.affordableStocks).2 p1.remainingCash).sumValues =
          availableCash
      unfold phase2Distribute
      rw [d4, c3, distribute_sum_total (phase2Weights p1.affordableStocks).1
        (phase2Weights p1.affordableStocks).2 p1.remainingCash
        (ne_of_gt (w3 haffne)) p1.affordableStocks w1]
      linarith
    · show sa ∈ (phase2Distribute p1.allocations p1.affordableStocks
        (phase2Weights p1.affordableStocks).1
        (phase2Weights p1.affordableStocks).2 p1.remainingCash).keys
      unfold phase2Distribute
      rw [d1, c1]
      exact hsa
    · show 0 < (phase2Distribute p1.allocations p1.affordableStocks
        (phase2Weights p1.affordableStocks).1
        (phase2Weights p1.affordableStocks).2 p1.remainingCash).get sa
      unfold phase2Distribute
      rw [d3 sa hsa]
      have hd_pos : 0 < (phase2Weights p1.affordableStocks).1.get sa /
          (phase2Weights p1.affordableStocks).2 * p1.remainingCash :=
        mul_pos (div_pos (w2 sa hsa) (w3 haffne)) hrem
      linarith
  · rw [if_neg (fun hc => hrem hc.1)]
    have hremz : p1.remainingCash = 0 :=
      le_antisymm (le_of_not_lt hrem) hrem0
    refine ⟨_, rfl, ?_, ⟨sa, ?_, ?_⟩⟩
    · rw [c3]
      linarith [c5, hremz]
    · rw [c1]
      exact hsa
    · exact hsa_pos

lemma equalSplit_foldl_keys (v : ℚ) :
    ∀ (l : List String) (d : Dict), l.Nodup → (∀ s ∈ l, s ∉ d.keys) →
    (l.foldl (fun a s => a.set s v) d).keys = d.keys ++ l := by
  intro l
  induction l with
  | nil => intro d _ _; simp
  | cons a t ih =>
    intro d hnd hf
    have ha : a ∉ d.keys := hf a (List.mem_cons_self a t)
    have hfresh : ∀ s ∈ t, s ∉ (d.set a v).keys := by
      intro s hs hmem
      rw [Dict.keys_set_of_not_mem d a v ha, List.mem_append,
        List.mem_singleton] at hmem
      rcases hmem with h | rfl
      · exact hf s (List.mem_cons_of_mem a hs) h
      · exact (List.nodup_cons.mp hnd).1 hs
    rw [List.foldl_cons, ih (d.set a v) (List.nodup_cons.mp hnd).2 hfresh,
      Dict.keys_set_of_not_mem d a v ha, List.append_assoc]
    rfl

lemma smartAllocateCash_fallback (buyList : List String)
    (resolvedPrice : String → ℚ) (availableCash : ℚ) (hnd : buyList.Nodup)
    (hne : buyList ≠ []) (hnp : ∀ s ∈ buyList, ¬ 0 < resolvedPrice s) :
    ∃ d, smartAllocateCash buyList resolvedPrice availableCash = Except.ok d ∧
      d.sumValues = availableCash := by
  simp only [smartAllocateCash]
  rw [buildStockPrices_no_pos buyList resolvedPrice hnp,
    if_pos (show Dict.empty.keys = ([] : List String) from rfl)]
  have hlen : ¬ buyList.length = 0 := fun h => hne (List.length_eq_zero.mp h)
  rw [if_neg hlen]
  refine ⟨_, rfl, ?_⟩
  unfold Dict.sumValues
  have hkeys : (buyList.foldl (fun a s =>
      a.set s (availableCash / (buyList.length : ℚ))) Dict.empty).keys =
      buyList := by
    rw [equalSplit_foldl_keys _ buyList Dict.empty hnd
      (fun s _ h => absurd h (List.not_mem_nil s))]
    rfl
  rw [hkeys]
  have hvals : buyList.map (buyList.foldl (fun a s =>
      a.set s (availableCash / (buyList.length : ℚ))) Dict.empty).val =
      buyList.map (fun _ => availableCash / (buyList.length : ℚ)) := by
    refine List.map_congr_left ?_
    intro s hs
    exact equalSplit_foldl_get_mem _ buyList Dict.empty s hs
  rw [hvals, list_sum_map_const]
  have hlenQ : ((buyList.length : ℚ)) ≠ 0 := by
    exact_mod_cast hlen
  rw [mul_comm, div_mul_cancel₀ _ hlenQ]

/-- C1: for every duplicate-free buy list with at least one symbol whose
resolved single-unit price is positive and within the available cash (so the
cheapest priced symbol is affordable), `smart_allocate_cash` succeeds, the
returned amounts sum to at most `available_cash` (in exact arithmetic they sum
to exactly `available_cash`), and at least one symbol receives a strictly
positive amount. -/
theorem smart_allocate_bounded_and_positive (buyList : List String)
    (resolvedPrice : String → ℚ) (availableCash : ℚ) (hnd : buyList.Nodup)
    (hex : ∃ s ∈ buyList,
      0 < resolvedPrice s ∧ resolvedPrice s ≤ availableCash) :
    ∃ d, smartAllocateCash buyList resolvedPrice availableCash = Except.ok d ∧
      d.sumValues ≤ availableCash ∧ ∃ s ∈ d.keys, 0 < d.get s := by
  obtain ⟨d, hok, hsum, hpos⟩ :=
    smart_allocate_ok_guarantee buyList resolvedPrice availableCash hnd hex
  exact ⟨d, hok, le_of_eq hsum, hpos⟩

/-- Witness for C1 at a one-symbol buy list. -/
theorem smart_allocate_bounded_and_positive_witness :
    ((["A"] : List String).Nodup ∧
      ∃ s ∈ (["A"] : List String),
        0 < examplePrice s ∧ examplePrice s ≤ 300) ∧
    ∃ d, smartAllocateCash ["A"] examplePrice 300 = Except.ok d ∧
      d.sumValues ≤ 300 ∧ ∃ s ∈ d.keys, 0 < d.get s :=
  ⟨⟨by decide, ⟨"A", by decide, by decide, by decide⟩⟩,
    smart_allocate_bounded_and_positive ["A"] examplePrice 300 (by decide)
      ⟨"A", by decide, by decide, by decide⟩⟩

/-- C9: for every duplicate-free buy list, whenever some symbol receives a
phase-1 guarantee (equivalently, some buy-list symbol has a positive resolved
price within the available cash) or the no-prices equal-split fallback is
taken, the returned amounts sum to exactly `available_cash`: phase 2
distributes the entire post-guarantee remainder. -/
theorem smart_allocate_spends_exactly (buyList : List String)
    (resolvedPrice : String → ℚ) (availableCash : ℚ) (hnd : buyList.Nodup)
    (hcase :
      (∃ s ∈ buyList,
        0 < resolvedPrice s ∧ resolvedPrice s ≤ availableCash) ∨
      (buyList ≠ [] ∧ ∀ s ∈ buyList, ¬ 0 < resolvedPrice s)) :
    ∃ d, smartAllocateCash buyList resolvedPrice availableCash = Except.ok d ∧
      d.sumValues = availableCash := by
  rcases hcase with hex | ⟨hne, hnp⟩
  · obtain ⟨d, hok, hsum, _⟩ :=
      smart_allocate_ok_guarantee buyList resolvedPrice availableCash hnd hex
    exact ⟨d, hok, hsum⟩
  · exact smartAllocateCash_fallback buyList resolvedPrice availableCash hnd
      hne hnp

/-- Witness for C9 at the worked three-symbol example. -/
theorem smart_allocate_spends_exactly_witness :
    ((["A", "B", "C"] : List String).Nodup ∧
      ∃ s ∈ (["A", "B", "C"] : List String),
        0 < examplePrice s ∧ examplePrice s ≤ 300) ∧
    ∃ d, smartAllocateCash ["A", "B", "C"] examplePrice 300 = Except.ok d ∧
      d.sumValues = 300 :=
  ⟨⟨by decide, ⟨"A", by decide, by decide, by decide⟩⟩,
    smart_allocate_spends_exactly ["A", "B", "C"] examplePrice 300 (by decide)
      (Or.inl ⟨"A", by decide, by decide, by decide⟩)⟩

end AllocationMain

section RedistributionLemmas

lemma foldl_redistStep_bought_mono (l : List BuyableStock)
    (st : List Position × ℚ × Bool) (h : st.2.2 = true) :
    (l.foldl redistStep st).2.2 = true := by
  induction l generalizing st with
  | nil => exact h
  | cons b t ih =>
    simp only [List.foldl_cons]
    refine ih _ ?_
    unfold redistStep
    split
    · rfl
    · exact h

lemma foldl_redistStep_nobuy (l : List BuyableStock)
    (st : List Position × ℚ × Bool) (h0 : st.2.2 = false)
    (hb : (l.foldl redistStep st).2.2 = false) :
    l.foldl redistStep st = st ∧ ∀ b ∈ l, st.2.1 < b.price := by
  induction l generalizing st with
  | nil => exact ⟨rfl, by simp⟩
  | cons b t ih =>
    simp only [List.foldl_cons] at hb ⊢
    by_cases hle : b.price ≤ st.2.1
    · have hstep : (redistStep st b).2.2 = true := by
        unfold redistStep
        rw [if_pos hle]
      have h1 := foldl_redistStep_bought_mono t _ hstep
      rw [h1] at hb
      exact absurd hb (by simp)
    · have hstep : redistStep st b = st := by
        unfold redistStep
        rw [if_neg hle]
      rw [hstep] at hb ⊢
      obtain ⟨he, hall⟩ := ih st h0 hb
      refine ⟨he, ?_⟩
      intro c hc
      rcases List.mem_cons.mp hc with rfl | hc'
      · exact lt_of_not_le hle
      · exact hall c hc'

lemma foldl_redistStep_cash_nonneg (l : List BuyableStock)
    (st : List Position × ℚ × Bool) (h : 0 ≤ st.2.1) :
    0 ≤ (l.foldl redistStep st).2.1 := by
  induction l generalizing st with
  | nil => exact h
  | cons b t ih =>
    simp only [List.foldl_cons]
    refine ih _ ?_
    by_cases hle : b.price ≤ st.2.1
    · unfold redistStep
      rw [if_pos hle]
      show (0 : ℚ) ≤ st.2.1 - b.price
      linarith
    · unfold redistStep
      rw [if_neg hle]
      exact h

lemma foldl_min_mem (l : List ℚ) (a : ℚ) :
    l.foldl min a = a ∨ l.foldl min a ∈ l := by
  induction l generalizing a with
  | nil => exact Or.inl rfl
  | cons y ys ih =>
    simp only [List.foldl_cons]
    rcases ih (min a y) with h | h
    · rcases min_choice a y with hm | hm
      · exact Or.inl (by rw [h, hm])
      · exact Or.inr (by rw [h, hm]; exact List.mem_cons_self y ys)
    · exact Or.inr (List.mem_cons_of_mem y h)

lemma listMinQ_mem (l : List ℚ) (hne : l ≠ []) : listMinQ l ∈ l := by
  cases l with
  | nil => exact absurd rfl hne
  | cons x xs =>
    show xs.foldl min x ∈ x :: xs
    rcases foldl_min_mem xs x with h | h
    · rw [h]
      exact List.mem_cons_self x xs
    · exact List.mem_cons_of_mem x h

lemma redistLoop_spec (buyable : List BuyableStock) :
    ∀ (df : List Position) (cash : ℚ),
    (∀ b ∈ buyable, 0 < b.price) → 0 ≤ cash →
    ((redistLoop buyable df cash).2 ≤ cash ∧
      0 ≤ (redistLoop buyable df cash).2 ∧
      ∀ b ∈ buyable, (redistLoop buyable df cash).2 < b.price) := by
  intro df cash
  induction df, cash using redistLoop.induct buyable with
  | case1 df cash h hb ih =>
    intro hpos h0
    rw [redistLoop]
    simp only [dif_pos h, dif_pos hb]
    have hcash' := foldl_redistStep_cash_le buyable hpos (df, cash, false)
    have hcash0' := foldl_redistStep_cash_nonneg buyable (df, cash, false) h0
    obtain ⟨i1, i2, i3⟩ := ih hpos hcash0'
    exact ⟨le_trans i1 hcash', i2, i3⟩
  | case2 df cash h hb =>
    intro hpos h0
    rw [redistLoop]
    simp only [dif_pos h, dif_neg hb]
    have hb' : (redistRound buyable df cash).2.2 = false := by
      cases hbool : (redistRound buyable df cash).2.2
      · rfl
      · exact absurd hbool hb
    obtain ⟨he, hall⟩ := foldl_redistStep_nobuy buyable (df, cash, false) rfl hb'
    have hcash : (redistRound buyable df cash).2.1 = cash := by
      show (buyable.foldl redistStep (df, cash, false)).2.1 = cash
      rw [he]
    rw [hcash]
    exact ⟨le_refl cash, h0, hall⟩
  | case3 df cash h =>
    intro hpos h0
    rw [redistLoop]
    simp only [dif_neg h]
    refine ⟨le_refl cash, h0, ?_⟩
    intro b hbm
    have hne : buyable ≠ [] := List.ne_nil_of_mem hbm
    have hmapne : buyable.map BuyableStock.price ≠ [] := by
      intro hnil
      have h2 := congrArg List.length hnil
      simp only [List.length_map, List.length_nil] at h2
      exact hne (List.length_eq_zero.mp h2)
    obtain ⟨x, hx, hxe⟩ := List.mem_map.mp (listMinQ_mem _ hmapne)
    have hbpos : 0 < listMinQ (buyable.map BuyableStock.price) := by
      rw [← hxe]
      exact hpos x hx
    have hlt : cash < listMinQ (buyable.map BuyableStock.price) :=
      lt_of_not_le (fun hle => h ⟨hle, hbpos⟩)
    exact lt_of_lt_of_le hlt
      (listMinQ_le_of_mem (List.mem_map_of_mem BuyableStock.price hbm))

lemma mem_buyableStocksOf (stockPositions : List Position)
    (currentPrice : String → Option ℚ) (ctr : ℚ) (p : Position)
    (hp : p ∈ stockPositions) (pr : ℚ) (hpr : currentPrice p.symbol = some pr)
    (hne0 : pr ≠ 0) (hle : pr ≤ ctr) :
    BuyableStock.mk p.symbol pr ∈
      buyableStocksOf stockPositions currentPrice ctr := by
  unfold buyableStocksOf
  rw [List.mem_filterMap]
  refine ⟨p, hp, ?_⟩
  rw [hpr]
  exact if_pos ⟨hne0, hle⟩

lemma buyableStocksOf_price_pos (stockPositions : List Position)
    (currentPrice : String → Option ℚ) (ctr : ℚ)
    (hpos : ∀ s pr, currentPrice s = some pr → 0 < pr) :
    ∀ b ∈ buyableStocksOf stockPositions currentPrice ctr, 0 < b.price := by
  intro b hb
  unfold buyableStocksOf at hb
  rw [List.mem_filterMap] at hb
  obtain ⟨a, _, heq⟩ := hb
  cases hcp : currentPrice a.symbol with
  | none => rw [hcp] at heq; exact absurd heq (by simp)
  | some pr =>
    rw [hcp] at heq
    have heq2 : (if pr ≠ 0 ∧ pr ≤ ctr then
        some (BuyableStock.mk a.symbol pr) else none) = some b := heq
    by_cases hc : pr ≠ 0 ∧ pr ≤ ctr
    · rw [if_pos hc] at heq2
      cases heq2
      exact hpos a.symbol pr hcp
    · rw [if_neg hc] at heq2
      exact absurd heq2 (by simp)

/-- C2 amended: `redistribute_remaining_cash` spends no more than the cash it
is given (the final cash is between `0` and the input), and afterwards every
held position whose resolved price fits within `remaining_cash - threshold` is
too expensive for what is left above the threshold: `final - threshold <
price`.  (Positions priced above `remaining_cash - threshold` are never
buyable, and the final cash can remain at or above their price.) -/
theorem redistribute_spec (df : List Position)
    (currentPrice : String → Option ℚ) (remainingCash minCashThreshold : ℚ)
    (h0 : 0 ≤ remainingCash) (hth : 0 ≤ minCashThreshold)
    (hpos : ∀ s pr, currentPrice s = some pr → 0 < pr) :
    (redistribute_remaining_cash df currentPrice remainingCash
        minCashThreshold).2 ≤ remainingCash ∧
    0 ≤ (redistribute_remaining_cash df currentPrice remainingCash
        minCashThreshold).2 ∧
    ∀ p ∈ df, p.symbol ≠ "CASH" → ∀ pr, currentPrice p.symbol = some pr →
      pr ≤ remainingCash - minCashThreshold →
      (redistribute_remaining_cash df currentPrice remainingCash
        minCashThreshold).2 - minCashThreshold < pr := by
  simp only [redistribute_remaining_cash]
  by_cases hc1 : remainingCash ≤ minCashThreshold
  · rw [if_pos hc1]
    refine ⟨le_refl _, h0, ?_⟩
    intro p _ _ pr hpr hle
    have := hpos p.symbol pr hpr
    linarith
  · rw [if_neg hc1]
    by_cases hc2 : df.filter (fun p => decide (p.symbol ≠ "CASH")) = []
    · rw [if_pos hc2]
      refine ⟨le_refl _, h0, ?_⟩
      intro p hp hpc pr hpr hle
      have hmem : p ∈ df.filter (fun p => decide (p.symbol ≠ "CASH")) :=
        List.mem_filter.mpr ⟨hp, by simpa using hpc⟩
      rw [hc2] at hmem
      exact absurd hmem (List.not_mem_nil p)
    · rw [if_neg hc2]
      by_cases hc3 : buyableStocksOf
          (df.filter (fun p => decide (p.symbol ≠ "CASH"))) currentPrice
          (remainingCash - minCashThreshold) = []
      · rw [if_pos hc3]
        refine ⟨le_refl _, h0, ?_⟩
        intro p hp hpc pr hpr hle
        have hmem : p ∈ df.filter (fun p => decide (p.symbol ≠ "CASH")) :=
          List.mem_filter.mpr ⟨hp, by simpa using hpc⟩
        have hb := mem_buyableStocksOf _ currentPrice _ p hmem pr hpr
          (ne_of_gt (hpos p.symbol pr hpr)) hle
        rw [hc3] at hb
        exact absurd hb (List.not_mem_nil _)
      · rw [if_neg hc3]
        have hctr0 : (0 : ℚ) ≤ remainingCash - minCashThreshold := by
          linarith [lt_of_not_le hc1]
        have hposes : ∀ b ∈ (buyableStocksOf
            (df.filter (fun p => decide (p.symbol ≠ "CASH"))) currentPrice
            (remainingCash - minCashThreshold)).mergeSort byPriceAsc,
            0 < b.price := by
          intro b hb
          exact buyableStocksOf_price_pos _ currentPrice _ hpos b
            (List.mem_mergeSort.mp hb)
        obtain ⟨L1, L2, L3⟩ := redistLoop_spec
          ((buyableStocksOf
            (df.filter (fun p => decide (p.symbol ≠ "CASH"))) currentPrice
            (remainingCash - minCashThreshold)).mergeSort byPriceAsc)
          df (remainingCash - minCashThreshold) hposes hctr0
        refine ⟨?_, ?_, ?_⟩
        · show minCashThreshold + (redistLoop ((buyableStocksOf
            (df.filter (fun p => decide (p.symbol ≠ "CASH"))) currentPrice
            (remainingCash - minCashThreshold)).mergeSort byPriceAsc) df
            (remainingCash - minCashThreshold)).2 ≤ remainingCash
          linarith
        · show 0 ≤ minCashThreshold + (redistLoop ((buyableStocksOf
            (df.filter (fun p => decide (p.symbol ≠ "CASH"))) currentPrice
            (remainingCash - minCashThreshold)).mergeSort byPriceAsc) df
            (remainingCash - minCashThreshold)).2
          linarith
        intro p hp hpc pr hpr hle
        have hmem : p ∈ df.filter (fun p => decide (p.symbol ≠ "CASH")) :=
          List.mem_filter.mpr ⟨hp, by simpa using hpc⟩
        have hb := mem_buyableStocksOf _ currentPrice _ p hmem pr hpr
          (ne_of_gt (hpos p.symbol pr hpr)) hle
        have hbs : BuyableStock.mk p.symbol pr ∈ (buyableStocksOf
            (df.filter (fun p => decide (p.symbol ≠ "CASH"))) currentPrice
            (remainingCash - minCashThreshold)).mergeSort byPriceAsc :=
          List.mem_mergeSort.mpr hb
        have := L3 _ hbs
        show minCashThreshold + _ - minCashThreshold < pr
        calc minCashThreshold + (redistLoop _ df
              (remainingCash - minCashThreshold)).2 - minCashThreshold =
            (redistLoop _ df (remainingCash - minCashThreshold)).2 := by ring
          _ < pr := this


/-- A price table resolving only `X`, at `1500`. -/
def priceX1500 : String → Option ℚ := fun s => if s = "X" then some 1500 else none

/-- A price table resolving only `X`, at `300`. -/
def priceX300 : String → Option ℚ := fun s => if s = "X" then some 300 else none

/-- C2 counterexample: one held position `X` priced `1500`, remaining cash
`2000`, threshold `1000`.  `X` costs more than `2000 - 1000`, so nothing is
buyable and the function returns the cash unchanged: the final cash `2000` is
neither below the held position's price (`2000 ≥ 1500`) nor at most the
threshold (`2000 > 1000`), refuting the claim as stated. -/
theorem redistribute_claim_counterexample :
    (redistribute_remaining_cash [⟨"X", 1⟩] priceX1500 2000 1000).2 = 2000 ∧
    (⟨"X", 1⟩ : Position) ∈
      (redistribute_remaining_cash [⟨"X", 1⟩] priceX1500 2000 1000).1 ∧
    priceX1500 "X" = some 1500 ∧
    ¬ ((redistribute_remaining_cash [⟨"X", 1⟩] priceX1500 2000 1000).2 ≤
        1000 ∨
      (redistribute_remaining_cash [⟨"X", 1⟩] priceX1500 2000 1000).2 <
        1500) := by
  norm_num +decide [redistribute_remaining_cash, buyableStocksOf, priceX1500]

/-- Witness for C2 (amended) at a concrete portfolio: `X` priced `300`,
remaining cash `2000`, threshold `1000`. -/
theorem redistribute_spec_witness :
    ((0 : ℚ) ≤ 2000 ∧ (0 : ℚ) ≤ 1000 ∧
      (∀ s pr, priceX300 s = some pr → 0 < pr)) ∧
    ((redistribute_remaining_cash [⟨"X", 1⟩] priceX300 2000 1000).2 ≤ 2000 ∧
      0 ≤ (redistribute_remaining_cash [⟨"X", 1⟩] priceX300 2000 1000).2 ∧
      ∀ p ∈ ([⟨"X", 1⟩] : List Position), p.symbol ≠ "CASH" →
        ∀ pr, priceX300 p.symbol = some pr → pr ≤ 2000 - 1000 →
        (redistribute_remaining_cash [⟨"X", 1⟩] priceX300 2000 1000).2 -
          1000 < pr) :=
  ⟨⟨by norm_num, by norm_num, by
      intro s pr h
      unfold priceX300 at h
      by_cases hs : s = "X"
      · rw [if_pos hs] at h
        simp only [Option.some.injEq] at h
        rw [← h]
        norm_num
      · rw [if_neg hs] at h
        exact absurd h (by simp)⟩,
    redistribute_spec [⟨"X", 1⟩] priceX300 2000 1000 (by norm_num) (by norm_num)
      (by
        intro s pr h
        unfold priceX300 at h
        by_cases hs : s = "X"
        · rw [if_pos hs] at h
          simp only [Option.some.injEq] at h
          rw [← h]
          norm_num
        · rw [if_neg hs] at h
          exact absurd h (by simp))⟩

end RedistributionLemmas

end Algo
